import Mathlib

/-!
Verification of the `prj_overview` tool (`src/prj_overview/main.py`).

The program walks a project directory and emits a Markdown document with a
rendered folder tree and the contents of each collected file.  Filtering
combines CLI glob exclude patterns (Python `fnmatch`) with gitignore-style
ignore files compiled by the `pathspec` library ("gitwildmatch" syntax).

Modelling conventions:
* A filesystem path is a list of components (`List String`); POSIX separators
  are assumed throughout (the tool produces identifiers via `Path.as_posix`,
  and `os.path.normcase` is the identity on POSIX hosts).
* `Path.relative_to` either returns the component suffix or raises
  `ValueError`; the model returns `Option`.  `should_process` returns
  `Option Bool`: `none` models the uncaught `ValueError` raised at
  `path.relative_to(project_root)` (main.py line 49).
* The directory tree is a finite inductive tree.  Recursive traversals are
  written with an explicit fuel argument instantiated with the tree's `size`,
  so that all definitions are structurally recursive and evaluate inside the
  kernel; the proved unfolding lemmas below show each wrapper satisfies the
  recurrence of the corresponding Python recursion.
-/

namespace PrjOverview

/-! ### Python `fnmatch` (shell glob) model

`fnmatch.fnmatch(name, pat)` performs a full-string match of the translated
glob regex: `*` matches any run of characters (including `/`), `?` any single
character, `[...]`/`[!...]` character classes (the first body character is
literal even if `]`; an unterminated `[` is a literal `[`). -/

/-- Scan forward to the closing `]` of a character class; returns the class
body and the remainder after the `]`. -/
def findClose : List Char → Option (List Char × List Char)
  | [] => none
  | c :: rest =>
    if c = ']' then some ([], rest)
    else
      match findClose rest with
      | some (body, after) => some (c :: body, after)
      | none => none

/-- Read a class body whose first character is literal (even if `]`),
tagging the result with the negation flag `neg`. -/
def classOf (neg : Bool) (cs : List Char) : Option (Bool × List Char × List Char) :=
  match cs with
  | [] => none
  | c0 :: rest =>
    match findClose rest with
    | some (body, after) => some (neg, c0 :: body, after)
    | none => none

/-- Split a character class after the opening `[`: negation flag, class body,
rest after the closing `]`.  `none` when the class is unterminated. -/
def splitClass (cs : List Char) : Option (Bool × List Char × List Char) :=
  match cs with
  | [] => none
  | c :: rest => if c = '!' then classOf true rest else classOf false (c :: rest)

/-- Interpret a class body as character ranges: `a-b` is a range (singletons
are degenerate ranges), a `-` lacking an endpoint is literal. -/
def classMembers : List Char → List (Char × Char)
  | [] => []
  | a :: '-' :: b :: rest => (a, b) :: classMembers rest
  | a :: rest => (a, a) :: classMembers rest

/-- Membership of a character in a (possibly negated) character class. -/
def matchClass (neg : Bool) (ranges : List (Char × Char)) (c : Char) : Bool :=
  let m := ranges.any fun r => decide (r.1 ≤ c) && decide (c ≤ r.2)
  if neg then !m else m

theorem findClose_length : ∀ {cs body after : List Char},
    findClose cs = some (body, after) → after.length < cs.length := by
  intro cs
  induction cs with
  | nil => intro b a h; simp [findClose] at h
  | cons c rest ih =>
    intro b a h
    simp only [findClose] at h
    split at h
    · simp only [Option.some.injEq, Prod.mk.injEq] at h
      obtain ⟨-, rfl⟩ := h
      simp
    · cases hf : findClose rest with
      | none => rw [hf] at h; simp at h
      | some pr =>
        obtain ⟨b', a'⟩ := pr
        rw [hf] at h
        simp only [Option.some.injEq, Prod.mk.injEq] at h
        obtain ⟨-, rfl⟩ := h
        have := ih hf
        simp only [List.length_cons]
        omega

theorem classOf_length {cs : List Char} {neg neg' : Bool} {body after : List Char}
    (h : classOf neg cs = some (neg', body, after)) : after.length < cs.length := by
  cases cs with
  | nil => simp [classOf] at h
  | cons c0 rest =>
    simp only [classOf] at h
    cases hf : findClose rest with
    | none => rw [hf] at h; simp at h
    | some pr =>
      obtain ⟨b', a'⟩ := pr
      rw [hf] at h
      simp only [Option.some.injEq, Prod.mk.injEq] at h
      obtain ⟨-, -, rfl⟩ := h
      have := findClose_length hf
      simp only [List.length_cons]
      omega

theorem splitClass_length {cs : List Char} {neg : Bool} {body after : List Char}
    (h : splitClass cs = some (neg, body, after)) : after.length < cs.length := by
  cases cs with
  | nil => simp [splitClass] at h
  | cons c rest =>
    simp only [splitClass] at h
    split at h
    · have := classOf_length h
      simp only [List.length_cons]
      omega
    · exact classOf_length h

/-- Full-string glob match, fuelled: every recursive call strictly decreases
`p.length + s.length`, so any fuel above that sum computes the match
(model of the regex produced by `fnmatch.translate`). -/
def globMatchF : Nat → List Char → List Char → Bool
  | 0, _, _ => false
  | fuel + 1, p, s =>
    match p with
    | [] => s.isEmpty
    | c :: p' =>
      if c = '*' then
        globMatchF fuel p' s ||
          (match s with
           | [] => false
           | _ :: s' => globMatchF fuel (c :: p') s')
      else if c = '[' then
        match splitClass p' with
        | some (neg, body, after) =>
          match s with
          | [] => false
          | d :: s' => matchClass neg (classMembers body) d && globMatchF fuel after s'
        | none =>
          match s with
          | [] => false
          | d :: s' => if d = '[' then globMatchF fuel p' s' else false
      else if c = '?' then
        match s with
        | [] => false
        | _ :: s' => globMatchF fuel p' s'
      else
        match s with
        | [] => false
        | d :: s' => if c = d then globMatchF fuel p' s' else false

/-- Full-string glob match of pattern `p` against string `s`. -/
def globMatch (p s : List Char) : Bool :=
  globMatchF (p.length + s.length + 1) p s

/-- Model of `fnmatch.fnmatch(name, pat)` (POSIX: `normcase` is the identity). -/
def fnmatch (name pat : String) : Bool :=
  globMatch pat.data name.data

/-- main.py lines 11-21: true iff the identifier matches any of the glob
patterns (first match wins; logging omitted). -/
def matches_any (identifier : String) (patterns : List String) : Bool :=
  patterns.any fun pattern => fnmatch identifier pattern

/-! ### `pathspec` "gitwildmatch" model

Model of `pathspec.PathSpec.from_lines("gitwildmatch", lines)` /
`PathSpec.match_file`, following gitignore pattern semantics as implemented by
the library: blank lines and `#` comments are null patterns; a leading `!`
negates; a trailing `/` restricts to directory contents; a pattern containing
a `/` (leading, or between segments) is anchored to the spec's root, otherwise
it may match at any depth; within a segment `*`/`?`/`[...]` do not cross `/`;
a `**` segment spans any number of directories; a pattern that matches a
directory also matches everything beneath it; `match_file` applies the
patterns in order and the last matching pattern decides (its negation flag),
default not matched. -/

/-- One compiled gitwildmatch pattern.  `inc = none` marks a null pattern
(blank line or comment) which never participates in matching. -/
structure GitPattern where
  inc : Option Bool
  anchored : Bool
  dirOnly : Bool
  segs : List (List Char)
deriving DecidableEq, Repr

/-- Split a character list on a separator character. -/
def splitOnChar (sep : Char) (l : List Char) : List (List Char) :=
  match l with
  | [] => [[]]
  | c :: rest =>
    let r := splitOnChar sep rest
    if c = sep then [] :: r
    else
      match r with
      | [] => [[c]]
      | seg :: segs => (c :: seg) :: segs

/-- Python `str.strip()` on a character list (whitespace both ends). -/
def stripChars (l : List Char) : List Char :=
  ((l.dropWhile Char.isWhitespace).reverse.dropWhile Char.isWhitespace).reverse

/-- Compile a single gitwildmatch line (one line of an ignore file). -/
def parseGitPattern (line : String) : GitPattern :=
  let p0 := stripChars line.data
  if p0 = [] ∨ p0.head? = some '#' ∨ p0 = ['/'] then
    { inc := none, anchored := false, dirOnly := false, segs := [] }
  else
    let neg := p0.head? = some '!'
    let p1 := if neg then p0.tail else p0
    if p1 = [] then { inc := none, anchored := false, dirOnly := false, segs := [] }
    else
      let anchoredLead := p1.head? = some '/'
      let p2 := if anchoredLead then p1.tail else p1
      let dirOnly := p2.getLast? = some '/'
      let p3 := if dirOnly then p2.dropLast else p2
      let segs := splitOnChar '/' p3
      { inc := some (!neg), anchored := anchoredLead || segs.length > 1,
        dirOnly := dirOnly, segs := segs }

/-- Match the pattern segments against the path segments.  An exhausted
pattern accepts any remaining path segments (a matched directory matches its
contents); `**` spans any number of segments; a directory-only pattern
requires at least one further path segment after the match. -/
def segsMatchF : Nat → List (List Char) → List (List Char) → Bool → Bool
  | 0, _, _, _ => false
  | fuel + 1, ps, ss, dirOnly =>
    match ps with
    | [] => if dirOnly then !ss.isEmpty else true
    | p :: ps' =>
      if p = ['*', '*'] then
        segsMatchF fuel ps' ss dirOnly ||
          (match ss with
           | [] => false
           | _ :: ss' => segsMatchF fuel (p :: ps') ss' dirOnly)
      else
        match ss with
        | [] => false
        | s :: ss' => globMatch p s && segsMatchF fuel ps' ss' dirOnly

def segsMatch (ps ss : List (List Char)) (dirOnly : Bool) : Bool :=
  segsMatchF (ps.length + ss.length + 1) ps ss dirOnly

/-- Whether one compiled pattern matches the path (given as segments relative
to the spec's root).  A non-anchored pattern may match at any depth. -/
def gitPatternMatch (gp : GitPattern) (ss : List (List Char)) : Bool :=
  let ps := if gp.anchored then gp.segs else ['*', '*'] :: gp.segs
  segsMatch ps ss gp.dirOnly

/-- Model of `PathSpec.match_file`: the last matching non-null pattern decides. -/
def specMatchFile (pats : List GitPattern) (rel : String) : Bool :=
  let ss := splitOnChar '/' rel.data
  pats.foldl
    (fun matched gp =>
      match gp.inc with
      | none => matched
      | some inc => if gitPatternMatch gp ss then inc else matched)
    false

/-- Model of `pathspec.PathSpec.from_lines("gitwildmatch", lines)`. -/
def pathspecFromLines (lines : List String) : List GitPattern :=
  lines.map parseGitPattern

/-! ### Paths and the Inclusion Decider -/

/-- Model of `Path.relative_to`: strip the root prefix, or `none` for the raised
`ValueError` when the path is not under the root. -/
def relativeTo (path root : List String) : Option (List String) :=
  if root <+: path then some (path.drop root.length) else none

/-- Model of `Path.as_posix()` of a relative path given by components
(`Path('.')`, the result of `p.relative_to(p)`, prints as `"."`). -/
def posixOf (parts : List String) : String :=
  match parts with
  | [] => "."
  | _ => String.mk (List.intercalate ['/'] (parts.map String.data))

/-- One element of the program's `ignore_specs` list: the tuple
`(base_directory, ignore_file_path, file_content, pathspec_object)`
built by `load_ignore_files` (main.py lines 71-88). -/
structure IgnoreSpec where
  baseDir : List String
  ignorePath : List String
  content : String
  spec : List GitPattern
deriving DecidableEq, Repr

/-- main.py lines 24-68 (`should_process`): decide whether a path is
processed.  `none` models the uncaught `ValueError` of
`path.relative_to(project_root)` at line 49; `some b` is a normal return. -/
def should_process (path : List String) (exclude_patterns : List String)
    (ignore_specs : List IgnoreSpec) (project_root : List String) : Option Bool :=
  let relative_parts := (relativeTo path project_root).getD path
  if ".git" ∈ relative_parts then some false
  else
    match relativeTo path project_root with
    | none => none
    | some rel =>
      let identifier := posixOf rel
      if matches_any identifier exclude_patterns then some false
      else if ignore_specs.any fun sp =>
          match relativeTo path sp.baseDir with
          | none => false
          | some r => specMatchFile sp.spec (posixOf r) then some false
      else some true

/-! ### Filesystem model

A finite directory tree.  `file` carries the `st_size` of the entry and the
result of `read_text` (`none` when reading/decoding raises).  Children are a
bespoke list (`FSChildren`) so that the mutual `size` function is structurally
recursive and kernel-computable; `toList`/`ofList` mediate to ordinary lists. -/

mutual
inductive FSTree where
  | file (size : Nat) (text : Option String)
  | dir (children : FSChildren)
inductive FSChildren where
  | nil
  | cons (name : String) (child : FSTree) (rest : FSChildren)
end

mutual
def FSTree.size : FSTree → Nat
  | .file _ _ => 1
  | .dir cs => 1 + cs.size
def FSChildren.size : FSChildren → Nat
  | .nil => 1
  | .cons _ t rest => 1 + t.size + rest.size
end

def FSChildren.toList : FSChildren → List (String × FSTree)
  | .nil => []
  | .cons n t rest => (n, t) :: rest.toList

def FSChildren.ofList : List (String × FSTree) → FSChildren
  | [] => .nil
  | (n, t) :: rest => .cons n t (ofList rest)

/-- Convenience constructor for directory literals. -/
def dirOf (l : List (String × FSTree)) : FSTree :=
  .dir (FSChildren.ofList l)

def FSTree.isDir : FSTree → Bool
  | .file _ _ => false
  | .dir _ => true

/-- The entry's `stat().st_size` (only consulted on files). -/
def FSTree.stSize : FSTree → Nat
  | .file sz _ => sz
  | .dir _ => 0

def FSTree.isFile : FSTree → Bool
  | .file _ _ => true
  | .dir _ => false

/-- Follow a component path down the tree (first entry with the name wins,
as a filesystem has unique names per directory). -/
def lookup : FSTree → List String → Option FSTree
  | t, [] => some t
  | .file _ _, _ :: _ => none
  | .dir cs, n :: rest =>
    match (cs.toList.find? fun e => e.1 = n) with
    | some e => lookup e.2 rest
    | none => none

/-- Well-formedness: sibling names are distinct at every level (fuelled). -/
def wfBF : Nat → FSTree → Bool
  | 0, _ => false
  | _ + 1, .file _ _ => true
  | fuel + 1, .dir cs =>
    decide (cs.toList.map Prod.fst).Nodup && (cs.toList.all fun e => wfBF fuel e.2)

def wfB (t : FSTree) : Bool := wfBF t.size t

/-! ### Tree Renderer (main.py lines 91-132, `generate_tree`) -/

/-- Python string comparison (code-point lexicographic) as `≤`. -/
def charListLT : List Char → List Char → Bool
  | [], [] => false
  | [], _ :: _ => true
  | _ :: _, [] => false
  | a :: as, b :: bs => if a = b then charListLT as bs else decide (a < b)

def charListLE (a b : List Char) : Bool := !(charListLT b a)

/-- The sort key comparison of `_tree`: `(not is_dir, name.lower())`,
directories first, then case-insensitive alphabetical.  (`str.lower` is
modelled per-character; the names exercised here are ASCII.) -/
def entryLE (a b : String × FSTree) : Bool :=
  if (!a.2.isDir) = (!b.2.isDir) then
    charListLE (a.1.data.map Char.toLower) (b.1.data.map Char.toLower)
  else a.2.isDir

/-- Stable insertion: `a` is placed before the first element it compares `≤`
to, so earlier list elements precede later equal-keyed ones. -/
def insertStable (le : α → α → Bool) (a : α) : List α → List α
  | [] => [a]
  | b :: t => if le a b then a :: b :: t else b :: insertStable le a t

/-- Stable sort (model of Python's stable `sorted`). -/
def sortStable (le : α → α → Bool) : List α → List α
  | [] => []
  | a :: t => insertStable le a (sortStable le t)

/-- The `entries` list of `_tree`: children minus `__pycache__`/`.git`,
stably sorted by `(not is_dir, name.lower())`. -/
def sortEntries (cs : List (String × FSTree)) : List (String × FSTree) :=
  sortStable entryLE (cs.filter fun e => !(e.1 == "__pycache__" || e.1 == ".git"))

/-- One rendered tree line, instrumented with the absolute path of the entry
that produced it and whether that entry is a file.  `generate_tree` joins the
`line` fields; the extra fields only name which entry a line belongs to. -/
structure TreeLine where
  line : String
  path : List String
  isFile : Bool
deriving DecidableEq, Repr

/-- The recursive `_tree` helper, fuelled.  `E` = CLI exclude patterns,
`S` = ignore specs, `R` = project root; `cur` is the absolute path of the
directory being listed and `pre` the indentation prefix. -/
def treeAuxF (E : List String) (S : List IgnoreSpec) (R : List String) :
    Nat → FSTree → List String → String → List TreeLine
  | 0, _, _, _ => []
  | _ + 1, .file _ _, _, _ => []
  | fuel + 1, .dir cs, cur, pre =>
    let entries := sortEntries cs.toList
    let cnt := entries.length
    entries.enum.flatMap fun e =>
      if should_process (cur ++ [e.2.1]) E S R = some true then
        if e.2.2.isDir then
          { line := pre ++ (if e.1 = cnt - 1 then "└──" else "├──") ++ " " ++ e.2.1 ++ "/",
            path := cur ++ [e.2.1], isFile := false }
            :: treeAuxF E S R fuel e.2.2 (cur ++ [e.2.1])
                (pre ++ (if e.1 = cnt - 1 then "    " else "│   "))
        else
          if e.2.1 = "__init__.py" ∧ e.2.2.stSize = 0 then []
          else
            [{ line := pre ++ (if e.1 = cnt - 1 then "└──" else "├──") ++ " " ++ e.2.1,
               path := cur ++ [e.2.1], isFile := true }]
      else []

/-- The call `_tree(current_path, prefix)` over the subtree `t` rooted at absolute
path `cur`. -/
def treeAux (E : List String) (S : List IgnoreSpec) (R : List String)
    (t : FSTree) (cur : List String) (pre : String) : List TreeLine :=
  treeAuxF E S R t.size t cur pre

/-- main.py lines 91-132: the rendered tree string.  Modelled at the
configuration used by `create_markdown`: `project_root = dir_path`
(the default `None` also resolves to `dir_path`), under which
`should_process` never raises. -/
def generate_tree (fs : FSTree) (dirName : String) (dirPath : List String)
    (E : List String) (S : List IgnoreSpec) : String :=
  String.intercalate "\n"
    ((dirName ++ "/") :: (treeAux E S dirPath fs dirPath "").map TreeLine.line)

/-! ### File Collector (main.py lines 135-163, `get_code_files`) -/

/-- Model of `dir_path.rglob("*")`, fuelled: every descendant entry, paired with its
component path relative to the traversal root. -/
def rglobF : Nat → FSTree → List (List String × FSTree)
  | 0, _ => []
  | _ + 1, .file _ _ => []
  | fuel + 1, .dir cs => cs.toList.flatMap fun e =>
      ([e.1], e.2) :: (rglobF fuel e.2).map fun pe => (e.1 :: pe.1, pe.2)

def rglobEntries (t : FSTree) : List (List String × FSTree) :=
  rglobF t.size t

/-- main.py lines 135-163: collect the files passing the filters, as
`(str(relative_path), absolute_path)` pairs.  Modelled at the configuration
used by `create_markdown`: `project_root = dir_path`. -/
def get_code_files (fs : FSTree) (dirPath : List String)
    (E : List String) (S : List IgnoreSpec) : List (String × List String) :=
  (rglobEntries fs).filterMap fun pe =>
    let path := dirPath ++ pe.1
    let relative_parts := (relativeTo path dirPath).getD path
    if ".git" ∈ relative_parts then none
    else if should_process path E S dirPath = some true then
      if pe.2.isFile then
        if pe.1.getLast? = some "__init__.py" ∧ pe.2.stSize = 0 then none
        else some (posixOf pe.1, path)
      else none
    else none

/-! ### Ignore-File Loader (main.py lines 71-88, `load_ignore_files`) -/

/-- Python `str.splitlines()` (modulo `\r`: only `\n` line breaks are
modelled, as in the ignore files exercised here). -/
def pySplitlines (s : String) : List String :=
  if s = "" then []
  else
    let parts := s.splitOn "\n"
    if parts.getLast? = some "" then parts.dropLast else parts

/-- main.py lines 71-88: find every entry named `file_name` under the
project directory (via `rglob`), read it (skipping unreadable entries and
directories, whose `read_text` raises), and compile it into a spec scoped to
its containing directory. -/
def load_ignore_files (fs : FSTree) (project_dir : List String)
    (file_name : String) : List IgnoreSpec :=
  (rglobEntries fs).filterMap fun pe =>
    if pe.1.getLast? = some file_name then
      match pe.2 with
      | .file _ (some content) =>
        some { baseDir := project_dir ++ pe.1.dropLast,
               ignorePath := project_dir ++ pe.1,
               content := content,
               spec := pathspecFromLines (pySplitlines content) }
      | _ => none
    else none

/-! ### Document Assembler (main.py lines 166-218, `create_markdown`) -/

/-- Index of the last `.` in a character list (`str.rfind('.')`). -/
def rfindDot : List Char → Option Nat
  | [] => none
  | c :: rest =>
    match rfindDot rest with
    | some i => some (i + 1)
    | none => if c = '.' then some 0 else none

/-- Model of `PurePath.suffix`: the final dot-extension, empty unless the last `.`
is at an index `i` with `0 < i < len - 1`. -/
def pySuffix (name : String) : String :=
  match rfindDot name.data with
  | some i =>
    if 0 < i ∧ i < name.data.length - 1 then String.mk (name.data.drop i) else ""
  | none => ""

/-- Model of `PurePath.stem`: the final component without its suffix. -/
def pyStem (name : String) : String :=
  match rfindDot name.data with
  | some i =>
    if 0 < i ∧ i < name.data.length - 1 then String.mk (name.data.take i) else name
  | none => name

/-- main.py lines 203-218: the Markdown block written for one collected file.
`text` is the result of `read_text` (`none`: the `UnicodeDecodeError` branch
substitutes the binary placeholder). -/
def fileSection (rel_path : String) (fileName : String) (text : Option String) : String :=
  let extension :=
    if pySuffix fileName ≠ "" then String.mk ((pySuffix fileName).data.drop 1)
    else pyStem fileName
  let code_block_start :=
    if extension = "md" then "````" ++ extension ++ "\n" else "```" ++ extension ++ "\n"
  let content :=
    match text with
    | some c => c
    | none => "# [Binary file not displayed]\n"
  let code_block_end := if extension = "md" then "````\n\n" else "```\n\n"
  "### " ++ rel_path ++ "\n" ++ code_block_start ++ content ++ "\n" ++ code_block_end

/-- The `read_text` of the collected file at `path` (paths are relative to the
scanned directory in the assembled document model). -/
def readText (fs : FSTree) (path : List String) : Option String :=
  match lookup fs path with
  | some (.file _ txt) => txt
  | _ => none

/-- main.py lines 166-218: the full Markdown document written to the output
file.  Paths are modelled relative to the scanned directory (`dirPath = []`),
matching the call `create_markdown(directory, ...)` with
`project_root = dir_path`; `dirName` is `dir_path.resolve().name`. -/
def create_markdown (fs : FSTree) (dirName : String) (exclude_patterns : List String)
    (ignore_specs : List IgnoreSpec) (tree_only : Bool) : String :=
  let header := "# " ++ dirName ++ " Overview\n\n"
  let treePart := "## Folder Structure\n```tree\n" ++
    generate_tree fs dirName [] exclude_patterns ignore_specs ++ "\n```\n\n"
  let codePart :=
    if tree_only then ""
    else
      "## Code\n" ++ String.join
        ((get_code_files fs [] exclude_patterns ignore_specs).map fun rp =>
          fileSection rp.1 (rp.2.getLast?.getD "") (readText fs rp.2))
  header ++ treePart ++ codePart

/-! ### CLI entry point (main.py lines 221-303, `main`) -/

/-- Observable outcome of one invocation: the exit code, the content written
to the output file (`none`: no write happened), and the message printed to
the error stream. -/
structure MainResult where
  exitCode : Nat
  output : Option String
  errOut : Option String
deriving DecidableEq, Repr

/-- main.py lines 221-303.  `target` is what the filesystem holds at the
`directory` argument: `none` if nothing exists there, otherwise the entry.
The directory check precedes every write; on success the specs are loaded
(`.llmignore` first, then `.gitignore`) and the document is written. -/
def pyMain (target : Option FSTree) (dirName : String)
    (exclude_patterns : List String)
    (no_llmignore use_gitignore tree_only : Bool) : MainResult :=
  match target with
  | some (.dir cs) =>
    let fs := FSTree.dir cs
    let ignore_specs :=
      (if !no_llmignore then load_ignore_files fs [] ".llmignore" else []) ++
      (if use_gitignore then load_ignore_files fs [] ".gitignore" else [])
    { exitCode := 0,
      output := some (create_markdown fs dirName exclude_patterns ignore_specs tree_only),
      errOut := none }
  | _ =>
    { exitCode := 1, output := none,
      errOut := some ("Error: The directory '" ++ dirName ++
        "' does not exist or is not a directory.") }

/-! ### Structural lemmas -/

theorem size_pos : ∀ (t : FSTree), 1 ≤ t.size
  | .file _ _ => le_refl _
  | .dir _ => by simp only [FSTree.size]; omega

theorem size_lt_of_mem_toList : ∀ {cs : FSChildren} {n : String} {t : FSTree},
    (n, t) ∈ cs.toList → t.size < (FSTree.dir cs).size
  | .nil, n, t, h => by simp [FSChildren.toList] at h
  | .cons m u rest, n, t, h => by
    simp only [FSChildren.toList, List.mem_cons, Prod.mk.injEq] at h
    rcases h with ⟨h1, h2⟩ | h
    · subst h2
      simp only [FSTree.size, FSChildren.size]
      omega
    · have := size_lt_of_mem_toList h
      simp only [FSTree.size, FSChildren.size] at this ⊢
      omega

theorem dir_size {cs : FSChildren} : (FSTree.dir cs).size = cs.size + 1 := by
  simp only [FSTree.size]; omega

theorem all_congr_mem {l : List α} {f g : α → Bool}
    (h : ∀ a ∈ l, f a = g a) : l.all f = l.all g := by
  induction l with
  | nil => rfl
  | cons a t ih =>
    simp only [List.all_cons]
    rw [h a (List.mem_cons_self a t), ih fun b hb => h b (List.mem_cons_of_mem a hb)]

theorem relativeTo_append (r s : List String) : relativeTo (r ++ s) r = some s := by
  simp [relativeTo, List.prefix_append]

theorem relativeTo_self (r : List String) : relativeTo r r = some [] := by
  simpa using relativeTo_append r []

theorem relativeTo_eq_none {p r : List String} (h : ¬ r <+: p) : relativeTo p r = none := by
  simp [relativeTo, h]

theorem mem_insertStable {le : α → α → Bool} {a b : α} {l : List α} :
    a ∈ insertStable le b l ↔ a = b ∨ a ∈ l := by
  induction l with
  | nil => simp [insertStable]
  | cons c t ih =>
    simp only [insertStable]
    split
    · simp
    · simp only [List.mem_cons, ih]
      tauto

theorem mem_sortStable {le : α → α → Bool} {a : α} {l : List α} :
    a ∈ sortStable le l ↔ a ∈ l := by
  induction l with
  | nil => simp [sortStable]
  | cons b t ih => simp [sortStable, mem_insertStable, ih]

theorem mem_sortEntries {e : String × FSTree} {cs : List (String × FSTree)} :
    e ∈ sortEntries cs ↔ e ∈ cs ∧ e.1 ≠ "__pycache__" ∧ e.1 ≠ ".git" := by
  rw [sortEntries, mem_sortStable, List.mem_filter]
  simp only [Bool.not_eq_eq_eq_not, Bool.not_true, Bool.or_eq_false_iff, beq_eq_false_iff_ne]

/-- From membership in a nodup-keyed association list to `find?`. -/
theorem find?_eq_some_of_nodup {l : List (String × FSTree)} {n : String} {t : FSTree}
    (hnd : (l.map Prod.fst).Nodup) (hm : (n, t) ∈ l) :
    (l.find? fun e => e.1 = n) = some (n, t) := by
  induction l with
  | nil => simp at hm
  | cons e rest ih =>
    simp only [List.map_cons, List.nodup_cons] at hnd
    rcases List.mem_cons.1 hm with he | hm'
    · subst he
      simp
    · have hne : ¬ (e.1 = n) := by
        intro h
        exact hnd.1 (h ▸ (List.mem_map_of_mem Prod.fst hm'))
      rw [List.find?_cons_of_neg _ (by simpa using hne)]
      exact ih hnd.2 hm'

/-! #### Fuel irrelevance and unfolding equations -/

theorem wfBF_irrel : ∀ (f1 f2 : Nat) (t : FSTree),
    t.size ≤ f1 → t.size ≤ f2 → wfBF f1 t = wfBF f2 t := by
  intro f1
  induction f1 with
  | zero => intro f2 t h1 _; have := size_pos t; omega
  | succ g ih =>
    intro f2 t h1 h2
    cases f2 with
    | zero => have := size_pos t; omega
    | succ h =>
      cases t with
      | file sz txt => rfl
      | dir cs =>
        simp only [wfBF]
        congr 1
        apply all_congr_mem
        intro e he
        have hs := size_lt_of_mem_toList (Prod.mk.eta (p := e) ▸ he)
        rw [dir_size] at hs h1 h2
        exact ih h e.2 (by omega) (by omega)

theorem wfB_dir {cs : FSChildren} :
    wfB (.dir cs) = (decide (cs.toList.map Prod.fst).Nodup &&
      (cs.toList.all fun e => wfB e.2)) := by
  rw [wfB, dir_size]
  simp only [wfBF]
  congr 1
  apply all_congr_mem
  intro e he
  have hs := size_lt_of_mem_toList (Prod.mk.eta (p := e) ▸ he)
  rw [dir_size] at hs
  rw [wfB]
  exact wfBF_irrel _ _ _ (by omega) (le_refl _)

theorem wfB_of_mem {cs : FSChildren} {n : String} {t : FSTree}
    (hwf : wfB (.dir cs) = true) (hm : (n, t) ∈ cs.toList) : wfB t = true := by
  rw [wfB_dir] at hwf
  simp only [Bool.and_eq_true, List.all_eq_true] at hwf
  exact hwf.2 (n, t) hm

theorem nodup_of_wfB {cs : FSChildren} (hwf : wfB (.dir cs) = true) :
    (cs.toList.map Prod.fst).Nodup := by
  rw [wfB_dir] at hwf
  simp only [Bool.and_eq_true, decide_eq_true_eq] at hwf
  exact hwf.1

theorem rglobF_irrel : ∀ (f1 f2 : Nat) (t : FSTree),
    t.size ≤ f1 → t.size ≤ f2 → rglobF f1 t = rglobF f2 t := by
  intro f1
  induction f1 with
  | zero => intro f2 t h1 _; have := size_pos t; omega
  | succ g ih =>
    intro f2 t h1 h2
    cases f2 with
    | zero => have := size_pos t; omega
    | succ h =>
      cases t with
      | file sz txt => rfl
      | dir cs =>
        simp only [rglobF]
        rw [List.flatMap_def, List.flatMap_def, List.map_congr_left]
        intro e he
        have hs := size_lt_of_mem_toList (Prod.mk.eta (p := e) ▸ he)
        rw [dir_size] at hs h1 h2
        rw [ih h e.2 (by omega) (by omega)]

theorem rglob_dir {cs : FSChildren} :
    rglobEntries (.dir cs) = cs.toList.flatMap fun e =>
      ([e.1], e.2) :: (rglobEntries e.2).map fun pe => (e.1 :: pe.1, pe.2) := by
  rw [rglobEntries, dir_size]
  simp only [rglobF]
  rw [List.flatMap_def, List.flatMap_def, List.map_congr_left]
  intro e he
  have hs := size_lt_of_mem_toList (Prod.mk.eta (p := e) ▸ he)
  rw [dir_size] at hs
  simp only [rglobEntries]
  rw [rglobF_irrel cs.size e.2.size e.2 (by omega) (le_refl _)]

theorem snd_mem_of_mem_enum {l : List α} {i : Nat} {x : α}
    (h : (i, x) ∈ l.enum) : x ∈ l :=
  List.get?_mem (List.mk_mem_enum_iff_get?.1 h)

theorem exists_enum_of_mem {l : List α} {x : α} (h : x ∈ l) :
    ∃ i, (i, x) ∈ l.enum := by
  rw [List.mem_iff_get?] at h
  obtain ⟨i, hi⟩ := h
  exact ⟨i, List.mk_mem_enum_iff_get?.2 hi⟩

theorem treeAuxF_irrel (E : List String) (S : List IgnoreSpec) (R : List String) :
    ∀ (f1 f2 : Nat) (t : FSTree) (cur : List String) (pre : String),
    t.size ≤ f1 → t.size ≤ f2 →
    treeAuxF E S R f1 t cur pre = treeAuxF E S R f2 t cur pre := by
  intro f1
  induction f1 with
  | zero => intro f2 t cur pre h1 _; have := size_pos t; omega
  | succ g ih =>
    intro f2 t cur pre h1 h2
    cases f2 with
    | zero => have := size_pos t; omega
    | succ h =>
      cases t with
      | file sz txt => rfl
      | dir cs =>
        simp only [treeAuxF]
        rw [List.flatMap_def, List.flatMap_def, List.map_congr_left]
        intro e he
        obtain ⟨i, name, sub⟩ := e
        have hmem : (name, sub) ∈ cs.toList :=
          (mem_sortEntries.1 (snd_mem_of_mem_enum he)).1
        have hs := size_lt_of_mem_toList hmem
        rw [dir_size] at hs h1 h2
        by_cases hsp : should_process (cur ++ [name]) E S R = some true
        · simp only [if_pos hsp]
          by_cases hd : sub.isDir = true
          · simp only [if_pos hd]
            congr 1
            refine ih h _ _ _ ?_ ?_ <;> omega
          · simp only [if_neg hd]
        · simp only [if_neg hsp]

/-- The loop body of `_tree` for the entry at index `e.1` of the `cnt`
sorted entries: rendered line (and recursion, for directories) when the
entry passes `should_process`, nothing otherwise. -/
def entryBlock (E : List String) (S : List IgnoreSpec) (R : List String)
    (cur : List String) (pre : String) (cnt : Nat)
    (e : Nat × String × FSTree) : List TreeLine :=
  if should_process (cur ++ [e.2.1]) E S R = some true then
    if e.2.2.isDir then
      { line := pre ++ (if e.1 = cnt - 1 then "└──" else "├──") ++ " " ++ e.2.1 ++ "/",
        path := cur ++ [e.2.1], isFile := false }
        :: treeAux E S R e.2.2 (cur ++ [e.2.1])
            (pre ++ (if e.1 = cnt - 1 then "    " else "│   "))
    else
      if e.2.1 = "__init__.py" ∧ e.2.2.stSize = 0 then []
      else
        [{ line := pre ++ (if e.1 = cnt - 1 then "└──" else "├──") ++ " " ++ e.2.1,
           path := cur ++ [e.2.1], isFile := true }]
  else []

/-- Unfolding equation of `_tree` on a directory: one `entryBlock` per
sorted entry, in order. -/
theorem treeAux_dir {E : List String} {S : List IgnoreSpec} {R : List String}
    {cs : FSChildren} {cur : List String} {pre : String} :
    treeAux E S R (.dir cs) cur pre =
      (sortEntries cs.toList).enum.flatMap
        (entryBlock E S R cur pre (sortEntries cs.toList).length) := by
  rw [treeAux, dir_size]
  simp only [treeAuxF]
  rw [List.flatMap_def, List.flatMap_def, List.map_congr_left]
  intro e he
  obtain ⟨i, name, sub⟩ := e
  have hmem : (name, sub) ∈ cs.toList :=
    (mem_sortEntries.1 (snd_mem_of_mem_enum he)).1
  have hs := size_lt_of_mem_toList hmem
  rw [dir_size] at hs
  simp only [entryBlock]
  by_cases hsp : should_process (cur ++ [name]) E S R = some true
  · simp only [if_pos hsp]
    by_cases hd : sub.isDir = true
    · simp only [if_pos hd]
      congr 1
      rw [treeAux]
      refine treeAuxF_irrel E S R _ _ _ _ _ ?_ ?_ <;> omega
    · simp only [if_neg hd]
  · simp only [if_neg hsp]

/-- Every rendered line's path properly extends the directory being listed. -/
theorem treeAuxF_path {E : List String} {S : List IgnoreSpec} {R : List String} :
    ∀ {f : Nat} {t : FSTree} {cur : List String} {pre : String} {l : TreeLine},
    l ∈ treeAuxF E S R f t cur pre → ∃ n rest, l.path = cur ++ n :: rest := by
  intro f
  induction f with
  | zero => intro t cur pre l h; simp [treeAuxF] at h
  | succ g ih =>
    intro t cur pre l h
    cases t with
    | file sz txt => simp [treeAuxF] at h
    | dir cs =>
      simp only [treeAuxF, List.mem_flatMap] at h
      obtain ⟨e, he, hl⟩ := h
      obtain ⟨i, name, sub⟩ := e
      by_cases hsp : should_process (cur ++ [name]) E S R = some true
      · rw [if_pos hsp] at hl
        by_cases hd : sub.isDir = true
        · rw [if_pos hd] at hl
          rcases List.mem_cons.1 hl with rfl | hl'
          · exact ⟨name, [], rfl⟩
          · obtain ⟨n, rest, hp⟩ := ih hl'
            exact ⟨name, n :: rest, by rw [hp, List.append_assoc]; rfl⟩
        · rw [if_neg hd] at hl
          split at hl
          · simp at hl
          · rcases List.mem_singleton.1 hl with rfl
            exact ⟨name, [], rfl⟩
      · rw [if_neg hsp] at hl
        simp at hl

theorem treeAux_path {E : List String} {S : List IgnoreSpec} {R : List String}
    {t : FSTree} {cur : List String} {pre : String} {l : TreeLine}
    (h : l ∈ treeAux E S R t cur pre) : ∃ n rest, l.path = cur ++ n :: rest :=
  treeAuxF_path h

theorem rglobEntries_file {sz : Nat} {txt : Option String} :
    rglobEntries (.file sz txt) = [] := rfl

theorem lookup_file {sz : Nat} {txt : Option String} {n : String} {rest : List String} :
    lookup (.file sz txt) (n :: rest) = none := rfl

theorem lookup_nil (t : FSTree) : lookup t [] = some t := by
  cases t <;> rfl

theorem lookup_dir {cs : FSChildren} {n : String} {rest : List String} :
    lookup (.dir cs) (n :: rest) =
      match (cs.toList.find? fun e => e.1 = n) with
      | some e => lookup e.2 rest
      | none => none := rfl

/-- Every `rglob` path is nonempty. -/
theorem rglob_ne_nil {t : FSTree} {p : List String} {e : FSTree}
    (h : (p, e) ∈ rglobEntries t) : p ≠ [] := by
  cases t with
  | file sz txt => simp [rglobEntries_file] at h
  | dir cs =>
    rw [rglob_dir, List.mem_flatMap] at h
    obtain ⟨a, -, hin⟩ := h
    rcases List.mem_cons.1 hin with heq | hmap
    · simp only [Prod.mk.injEq] at heq
      rw [heq.1]
      simp
    · rw [List.mem_map] at hmap
      obtain ⟨pe, -, hpe⟩ := hmap
      simp only [Prod.mk.injEq] at hpe
      rw [← hpe.1]
      simp

/-- The traversal `rglob` enumerates exactly the nonempty paths resolvable by `lookup`
(on a well-formed tree). -/
theorem mem_rglob_iff_lookup : ∀ {p : List String} {t : FSTree} {e : FSTree},
    wfB t = true → ((p, e) ∈ rglobEntries t ↔ p ≠ [] ∧ lookup t p = some e) := by
  intro p
  induction p with
  | nil =>
    intro t e _
    constructor
    · intro h; exact absurd rfl (rglob_ne_nil h)
    · intro h; exact absurd rfl h.1
  | cons n rest ih =>
    intro t e hwf
    cases t with
    | file sz txt => simp [rglobEntries_file, lookup_file]
    | dir cs =>
      constructor
      · intro h
        rw [rglob_dir, List.mem_flatMap] at h
        obtain ⟨a, hmem, hin⟩ := h
        obtain ⟨an, at'⟩ := a
        rcases List.mem_cons.1 hin with heq | hmap
        · simp only [Prod.mk.injEq, List.cons.injEq] at heq
          obtain ⟨⟨h1, h2⟩, h3⟩ := heq
          subst h1; subst h2; subst h3
          refine ⟨by simp, ?_⟩
          rw [lookup_dir, find?_eq_some_of_nodup (nodup_of_wfB hwf) hmem]
          simp [lookup_nil]
        · rw [List.mem_map] at hmap
          obtain ⟨pe, hpe_mem, hpe⟩ := hmap
          obtain ⟨pp, ee⟩ := pe
          simp only [Prod.mk.injEq, List.cons.injEq] at hpe
          obtain ⟨⟨h1, h2⟩, h3⟩ := hpe
          subst h1; subst h2; subst h3
          have hwf' : wfB at' = true := wfB_of_mem hwf hmem
          have hlk := ((ih hwf').1 hpe_mem).2
          refine ⟨by simp, ?_⟩
          rw [lookup_dir, find?_eq_some_of_nodup (nodup_of_wfB hwf) hmem]
          exact hlk
      · rintro ⟨-, hl⟩
        rw [lookup_dir] at hl
        cases hf : cs.toList.find? fun e => e.1 = n with
        | none => rw [hf] at hl; simp at hl
        | some fe =>
          rw [hf] at hl
          have hfe_mem : fe ∈ cs.toList := List.mem_of_find?_eq_some hf
          have hfe_n : fe.1 = n := by simpa using List.find?_some hf
          rw [rglob_dir, List.mem_flatMap]
          refine ⟨fe, hfe_mem, ?_⟩
          cases rest with
          | nil =>
            have he : fe.2 = e := by simpa [lookup] using hl
            exact List.mem_cons.2 (Or.inl (by rw [hfe_n, he]))
          | cons m rest' =>
            refine List.mem_cons.2 (Or.inr ?_)
            rw [List.mem_map]
            have hwf' : wfB fe.2 = true := wfB_of_mem hwf (show (fe.1, fe.2) ∈ cs.toList from hfe_mem)
            exact ⟨(m :: rest', e), (ih hwf').2 ⟨by simp, hl⟩, by rw [hfe_n]⟩

/-! #### `should_process` facts -/

/-- Under the project root, `should_process` never raises. -/
theorem should_process_isSome {p E : List String} {S : List IgnoreSpec} {r : List String}
    (h : r <+: p) : (should_process p E S r).isSome := by
  obtain ⟨s, rfl⟩ := h
  rw [should_process]
  simp only [relativeTo_append, Option.getD_some]
  by_cases h1 : ".git" ∈ s
  · rw [if_pos h1]; rfl
  · rw [if_neg h1]
    by_cases h2 : matches_any (posixOf s) E = true
    · rw [if_pos h2]; rfl
    · rw [if_neg h2]
      split <;> rfl

/-- The `.git` component check fires on the parts relative to the root. -/
theorem should_process_git_append {r s E : List String} {S : List IgnoreSpec}
    (h : ".git" ∈ s) : should_process (r ++ s) E S r = some false := by
  rw [should_process]
  simp only [relativeTo_append, Option.getD_some]
  rw [if_pos h]

/-- Value of `should_process` under the root, when no `.git` component occurs. -/
theorem should_process_append {r s E : List String} {S : List IgnoreSpec}
    (h : ".git" ∉ s) :
    should_process (r ++ s) E S r =
      (if matches_any (posixOf s) E then some false
       else if S.any fun sp =>
          match relativeTo (r ++ s) sp.baseDir with
          | none => false
          | some q => specMatchFile sp.spec (posixOf q) then some false
       else some true) := by
  rw [should_process]
  simp only [relativeTo_append, Option.getD_some]
  rw [if_neg h]

/-! #### Collector characterization -/

/-- What `get_code_files` collects, in terms of the filesystem. -/
theorem mem_get_code_files_iff {fs : FSTree} {R E : List String} {S : List IgnoreSpec}
    {rel : String} {abs : List String} (hwf : wfB fs = true) :
    (rel, abs) ∈ get_code_files fs R E S ↔
      ∃ s sz txt, s ≠ [] ∧ rel = posixOf s ∧ abs = R ++ s ∧
        lookup fs s = some (.file sz txt) ∧
        ".git" ∉ s ∧
        should_process (R ++ s) E S R = some true ∧
        ¬(s.getLast? = some "__init__.py" ∧ sz = 0) := by
  rw [get_code_files, List.mem_filterMap]
  constructor
  · rintro ⟨⟨s, e⟩, hmem, hf⟩
    have hlk := (mem_rglob_iff_lookup hwf).1 hmem
    simp only [relativeTo_append, Option.getD_some] at hf
    by_cases hgit : ".git" ∈ s
    · rw [if_pos hgit] at hf; simp at hf
    rw [if_neg hgit] at hf
    by_cases hsp : should_process (R ++ s) E S R = some true
    swap
    · rw [if_neg hsp] at hf; simp at hf
    rw [if_pos hsp] at hf
    cases e with
    | dir cs => simp [FSTree.isFile] at hf
    | file sz txt =>
      simp only [FSTree.isFile, if_true] at hf
      by_cases hinit : s.getLast? = some "__init__.py" ∧ (FSTree.file sz txt).stSize = 0
      · rw [if_pos hinit] at hf; simp at hf
      rw [if_neg hinit] at hf
      simp only [Option.some.injEq, Prod.mk.injEq] at hf
      exact ⟨s, sz, txt, hlk.1, hf.1.symm, hf.2.symm, hlk.2, hgit, hsp,
        by simpa [FSTree.stSize] using hinit⟩
  · rintro ⟨s, sz, txt, hne, rfl, rfl, hlk, hgit, hsp, hinit⟩
    refine ⟨(s, .file sz txt), (mem_rglob_iff_lookup hwf).2 ⟨hne, hlk⟩, ?_⟩
    simp only [relativeTo_append, Option.getD_some]
    rw [if_neg hgit, if_pos hsp]
    simp only [FSTree.isFile, if_true]
    rw [if_neg (by simpa [FSTree.stSize] using hinit)]

theorem treeAux_file {E : List String} {S : List IgnoreSpec} {R : List String}
    {sz : Nat} {txt : Option String} {cur : List String} {pre : String} :
    treeAux E S R (.file sz txt) cur pre = [] := rfl

/-- Which files obtain a line in the rendered tree: exactly the files whose
every ancestor directory below the root survived `should_process` (and the
`__pycache__`/`.git` name pre-filter), and which themselves pass the decider
and the empty-`__init__.py` rule. -/
theorem mem_treeAux_file_iff {E : List String} {S : List IgnoreSpec} {R : List String} :
    ∀ {s : List String} {t : FSTree} {cur : List String} {pre : String},
    wfB t = true →
    ((∃ l ∈ treeAux E S R t cur pre, l.path = cur ++ s ∧ l.isFile = true) ↔
      (∃ sz txt, s ≠ [] ∧ lookup t s = some (.file sz txt) ∧
        (∀ c ∈ s, c ≠ ".git" ∧ c ≠ "__pycache__") ∧
        (∀ p, p ≠ [] → p.length < s.length → p <+: s →
          should_process (cur ++ p) E S R = some true) ∧
        should_process (cur ++ s) E S R = some true ∧
        ¬(s.getLast? = some "__init__.py" ∧ sz = 0))) := by
  intro s
  induction s with
  | nil =>
    intro t cur pre _
    constructor
    · rintro ⟨l, hl, hpath, -⟩
      obtain ⟨k, rest, hp⟩ := treeAux_path hl
      rw [hp] at hpath
      have : (k :: rest : List String) = [] := List.append_cancel_left hpath
      simp at this
    · rintro ⟨_, _, hne, -⟩
      exact absurd rfl hne
  | cons n s' ih =>
    intro t cur pre hwf
    cases t with
    | file sz txt =>
      constructor
      · rintro ⟨l, hl, -⟩
        rw [treeAux_file] at hl
        simp at hl
      · rintro ⟨sz', txt', -, hlk, -⟩
        rw [lookup_file] at hlk
        simp at hlk
    | dir cs =>
      constructor
      · rintro ⟨l, hl, hpath, hfile⟩
        rw [treeAux_dir, List.mem_flatMap] at hl
        obtain ⟨a, ha, hin⟩ := hl
        obtain ⟨i, m, sub⟩ := a
        simp only [entryBlock] at hin
        by_cases hsp : should_process (cur ++ [m]) E S R = some true
        swap
        · rw [if_neg hsp] at hin; simp at hin
        rw [if_pos hsp] at hin
        have hment := mem_sortEntries.1 (snd_mem_of_mem_enum ha)
        by_cases hd : sub.isDir = true
        · rw [if_pos hd] at hin
          rcases List.mem_cons.1 hin with rfl | hin'
          · simp at hfile
          · obtain ⟨k, rest, hp⟩ := treeAux_path hin'
            rw [hp, List.append_assoc] at hpath
            have hms := List.append_cancel_left hpath
            simp only [List.singleton_append, List.cons.injEq] at hms
            obtain ⟨rfl, hs'⟩ := hms
            subst hs'
            have hwf' : wfB sub = true := wfB_of_mem hwf hment.1
            obtain ⟨sz, txt, hne', hlk', hcomps', hpref', hsp', hinit'⟩ :=
              (ih hwf').1 ⟨l, hin', hp, hfile⟩
            refine ⟨sz, txt, by simp, ?_, ?_, ?_, ?_, ?_⟩
            · rw [lookup_dir, find?_eq_some_of_nodup (nodup_of_wfB hwf) hment.1]
              exact hlk'
            · intro c hc
              rcases List.mem_cons.1 hc with rfl | hc'
              · exact ⟨hment.2.2, hment.2.1⟩
              · exact hcomps' c hc'
            · intro p hpne hplen hppre
              cases p with
              | nil => exact absurd rfl hpne
              | cons x q =>
                rw [List.cons_prefix_cons] at hppre
                obtain ⟨rfl, hq⟩ := hppre
                cases q with
                | nil => simpa using hsp
                | cons y q' =>
                  have : should_process ((cur ++ [x]) ++ (y :: q')) E S R = some true := by
                    refine hpref' (y :: q') (by simp) ?_ hq
                    simp only [List.length_cons] at hplen ⊢
                    omega
                  simpa [List.append_assoc] using this
            · have := hsp'
              simpa [List.append_assoc] using this
            · intro hc
              rw [List.getLast?_cons_cons] at hc
              exact hinit' hc
        · rw [if_neg hd] at hin
          by_cases hinit0 : m = "__init__.py" ∧ sub.stSize = 0
          · rw [if_pos hinit0] at hin; simp at hin
          rw [if_neg hinit0] at hin
          rcases List.mem_singleton.1 hin with rfl
          have hms : ([m] : List String) = n :: s' := List.append_cancel_left hpath
          simp only [List.cons.injEq] at hms
          obtain ⟨rfl, hs'⟩ := hms
          have hs'' := hs'.symm
          subst hs''
          cases sub with
          | dir cs' => simp [FSTree.isDir] at hd
          | file sz txt =>
            refine ⟨sz, txt, by simp, ?_, ?_, ?_, by simpa using hsp, ?_⟩
            · rw [lookup_dir, find?_eq_some_of_nodup (nodup_of_wfB hwf) hment.1]
              simp [lookup_nil]
            · intro c hc
              rcases List.mem_singleton.1 hc with rfl
              exact ⟨hment.2.2, hment.2.1⟩
            · intro p hpne hplen _
              cases p with
              | nil => exact absurd rfl hpne
              | cons x q => simp at hplen
            · intro hc
              obtain ⟨h1, h2⟩ := hc
              simp only [List.getLast?_singleton, Option.some.injEq] at h1
              exact hinit0 ⟨h1, by simpa [FSTree.stSize] using h2⟩
      · rintro ⟨sz, txt, -, hlk, hcomps, hpref, hsp, hinit⟩
        rw [lookup_dir] at hlk
        cases hf : cs.toList.find? fun e => e.1 = n with
        | none => rw [hf] at hlk; simp at hlk
        | some fe =>
          rw [hf] at hlk
          have hfe_mem : fe ∈ cs.toList := List.mem_of_find?_eq_some hf
          have hfe_n : fe.1 = n := by simpa using List.find?_some hf
          obtain ⟨fn, ft⟩ := fe
          simp only at hfe_n
          subst hfe_n
          have hlk' : lookup ft s' = some (.file sz txt) := hlk
          have hngit : fn ≠ ".git" := (hcomps fn (by simp)).1
          have hnpyc : fn ≠ "__pycache__" := (hcomps fn (by simp)).2
          have hsorted : (fn, ft) ∈ sortEntries cs.toList :=
            mem_sortEntries.2 ⟨hfe_mem, hnpyc, hngit⟩
          obtain ⟨i, hienum⟩ := exists_enum_of_mem hsorted
          have hspn : should_process (cur ++ [fn]) E S R = some true := by
            cases s' with
            | nil => simpa using hsp
            | cons y ys =>
              refine hpref [fn] (by simp) (by simp) ?_
              exact List.cons_prefix_cons.2 ⟨rfl, by simp⟩
          cases s' with
          | nil =>
            have hft : ft = .file sz txt := by simpa [lookup_nil] using hlk'
            subst hft
            refine ⟨⟨pre ++ (if i = (sortEntries cs.toList).length - 1 then "└──" else "├──")
              ++ " " ++ fn, cur ++ [fn], true⟩, ?_, rfl, rfl⟩
            rw [treeAux_dir, List.mem_flatMap]
            refine ⟨(i, fn, .file sz txt), hienum, ?_⟩
            simp only [entryBlock]
            rw [if_pos hspn]
            simp only [FSTree.isDir, Bool.false_eq_true, if_false]
            rw [if_neg (fun hc => hinit ⟨by simp [hc.1], by simpa [FSTree.stSize] using hc.2⟩)]
            exact List.mem_singleton.2 rfl
          | cons y ys =>
            cases ft with
            | file a b => rw [lookup_file] at hlk'; simp at hlk'
            | dir cs' =>
              have hwf' : wfB (FSTree.dir cs') = true := wfB_of_mem hwf hfe_mem
              have hpref2 : ∀ q, q ≠ [] → q.length < (y :: ys).length → q <+: (y :: ys) →
                  should_process ((cur ++ [fn]) ++ q) E S R = some true := by
                intro q hqne hqlen hqpre
                have : should_process (cur ++ (fn :: q)) E S R = some true := by
                  refine hpref (fn :: q) (by simp) ?_ (List.cons_prefix_cons.2 ⟨rfl, hqpre⟩)
                  simp only [List.length_cons] at hqlen ⊢
                  omega
                simpa [List.append_assoc] using this
              have hsp2 : should_process ((cur ++ [fn]) ++ (y :: ys)) E S R = some true := by
                simpa [List.append_assoc] using hsp
              have hinit2 : ¬((y :: ys).getLast? = some "__init__.py" ∧ sz = 0) := fun hc =>
                hinit (by rw [List.getLast?_cons_cons]; exact hc)
              obtain ⟨l, hl', hpath', hfile'⟩ :=
                (@ih (FSTree.dir cs') (cur ++ [fn])
                  (pre ++ (if i = (sortEntries cs.toList).length - 1
                    then "    " else "│   ")) hwf').2
                  ⟨sz, txt, by simp, hlk', fun c hc => hcomps c (List.mem_cons_of_mem fn hc),
                    hpref2, hsp2, hinit2⟩
              refine ⟨l, ?_, ?_, hfile'⟩
              · rw [treeAux_dir, List.mem_flatMap]
                refine ⟨(i, fn, .dir cs'), hienum, ?_⟩
                simp only [entryBlock]
                rw [if_pos hspn]
                simp only [FSTree.isDir, if_true]
                exact List.mem_cons_of_mem _ hl'
              · rw [hpath', List.append_assoc]
                rfl

theorem any_perm {l1 l2 : List α} (h : l1.Perm l2) : ∀ (f : α → Bool), l1.any f = l2.any f := by
  intro f
  cases hb : l2.any f
  · rw [List.any_eq_false] at hb ⊢
    intro x hx
    exact hb x (h.mem_iff.1 hx)
  · rw [List.any_eq_true] at hb ⊢
    obtain ⟨x, hx, hfx⟩ := hb
    exact ⟨x, h.mem_iff.2 hx, hfx⟩

/-! ### Claims -/

/-- C3 (counterexample): the claim "every path having a `.git` component is
rejected by `should_process`" fails when the `.git` component lies inside the
project root itself: scanning the directory `.git` processes the file
`.git/f`, because the check inspects only the parts relative to the root. -/
theorem claim_C3_cex :
    (".git" ∈ ([".git", "f"] : List String)) ∧
      should_process [".git", "f"] [] [] [".git"] = some true := by
  constructor
  · decide
  · decide

/-- C3 (amended): for every path whose components relative to the project
root (the full components when the path is not under the root) contain
`.git`, `should_process` returns `false`, for every CLI pattern and
ignore-spec configuration — the decision depends on neither. -/
theorem claim_C3 (path exclude_patterns : List String) (ignore_specs : List IgnoreSpec)
    (project_root : List String)
    (h : ".git" ∈ (relativeTo path project_root).getD path) :
    should_process path exclude_patterns ignore_specs project_root = some false := by
  simp only [should_process]
  rw [if_pos h]

theorem claim_C3_witness :
    (".git" ∈ (relativeTo ["r", ".git", "f"] ["r"]).getD ["r", ".git", "f"]) ∧
      should_process ["r", ".git", "f"] ["*.md"] [] ["r"] = some false :=
  ⟨by decide, claim_C3 ["r", ".git", "f"] ["*.md"] [] ["r"] (by decide)⟩

/-- C4: a path whose identifier relative to the project root matches a CLI
exclude pattern is rejected, whatever the ignore specs contain. -/
theorem claim_C4 (path exclude_patterns : List String) (ignore_specs : List IgnoreSpec)
    (project_root rel : List String)
    (hrel : relativeTo path project_root = some rel)
    (hmatch : matches_any (posixOf rel) exclude_patterns = true) :
    should_process path exclude_patterns ignore_specs project_root = some false := by
  simp only [should_process, hrel, Option.getD_some]
  by_cases hg : ".git" ∈ rel
  · rw [if_pos hg]
  · rw [if_neg hg, if_pos hmatch]

theorem claim_C4_witness :
    relativeTo ["r", "doc", "x.md"] ["r"] = some ["doc", "x.md"] ∧
      matches_any (posixOf ["doc", "x.md"]) ["*.md"] = true ∧
      should_process ["r", "doc", "x.md"] ["*.md"]
        [⟨["r"], ["r", ".llmignore"], "!doc/x.md", pathspecFromLines ["!doc/x.md"]⟩]
        ["r"] = some false :=
  ⟨by decide, by decide,
    claim_C4 ["r", "doc", "x.md"] ["*.md"]
      [⟨["r"], ["r", ".llmignore"], "!doc/x.md", pathspecFromLines ["!doc/x.md"]⟩]
      ["r"] ["doc", "x.md"] (by decide) (by decide)⟩

/-- C5: gitignore negation within a single spec — with lines `build/*` then
`!build/keep.txt` (and no CLI excludes), `build/keep.txt` is processed while
`build/other.txt` is rejected, wherever the scope root `R` lies. -/
theorem claim_C5 (R : List String) :
    should_process (R ++ ["build", "keep.txt"]) []
        [⟨R, R ++ [".llmignore"], "build/*\n!build/keep.txt",
          pathspecFromLines ["build/*", "!build/keep.txt"]⟩] R = some true ∧
    should_process (R ++ ["build", "other.txt"]) []
        [⟨R, R ++ [".llmignore"], "build/*\n!build/keep.txt",
          pathspecFromLines ["build/*", "!build/keep.txt"]⟩] R = some false := by
  have hkeep : specMatchFile (pathspecFromLines ["build/*", "!build/keep.txt"])
      (posixOf ["build", "keep.txt"]) = false := by decide
  have hother : specMatchFile (pathspecFromLines ["build/*", "!build/keep.txt"])
      (posixOf ["build", "other.txt"]) = true := by decide
  constructor <;>
    simp [should_process, relativeTo_append, matches_any, hkeep, hother]

/-- C6: ignore-spec scoping — an ignore file at `a/b/.llmignore` containing
`x` does not affect `a/x` (outside its scope root `a/b`) but rejects
`a/b/x`. -/
theorem claim_C6 (R : List String) :
    should_process (R ++ ["a", "x"]) []
        [⟨R ++ ["a", "b"], R ++ ["a", "b", ".llmignore"], "x",
          pathspecFromLines ["x"]⟩] R = some true ∧
    should_process (R ++ ["a", "b", "x"]) []
        [⟨R ++ ["a", "b"], R ++ ["a", "b", ".llmignore"], "x",
          pathspecFromLines ["x"]⟩] R = some false := by
  have hout : relativeTo (R ++ ["a", "x"]) (R ++ ["a", "b"]) = none := by
    refine relativeTo_eq_none ?_
    rw [List.prefix_append_right_inj]
    decide
  have hin : relativeTo (R ++ ["a", "b", "x"]) (R ++ ["a", "b"]) = some ["x"] := by
    have : R ++ ["a", "b", "x"] = (R ++ ["a", "b"]) ++ ["x"] := by simp
    rw [this, relativeTo_append]
  have hx : specMatchFile (pathspecFromLines ["x"]) (posixOf ["x"]) = true := by decide
  constructor
  · simp [should_process, relativeTo_append, matches_any, hout]
  · simp [should_process, relativeTo_append, matches_any, hin, hx]

/-- C7: `should_process` is invariant under permutation of the ignore-spec
list — the loop only asks whether any spec matches. -/
theorem claim_C7 (path exclude_patterns : List String)
    (specs1 specs2 : List IgnoreSpec) (project_root : List String)
    (hperm : specs1.Perm specs2) :
    should_process path exclude_patterns specs1 project_root =
      should_process path exclude_patterns specs2 project_root := by
  simp only [should_process, any_perm hperm]

theorem claim_C7_witness :
    (([⟨["r"], ["r", ".llmignore"], "x", pathspecFromLines ["x"]⟩,
       ⟨["r"], ["r", ".gitignore"], "y", pathspecFromLines ["y"]⟩] : List IgnoreSpec).Perm
      [⟨["r"], ["r", ".gitignore"], "y", pathspecFromLines ["y"]⟩,
       ⟨["r"], ["r", ".llmignore"], "x", pathspecFromLines ["x"]⟩]) ∧
    should_process ["r", "x"] []
        [⟨["r"], ["r", ".llmignore"], "x", pathspecFromLines ["x"]⟩,
         ⟨["r"], ["r", ".gitignore"], "y", pathspecFromLines ["y"]⟩] ["r"] =
      should_process ["r", "x"] []
        [⟨["r"], ["r", ".gitignore"], "y", pathspecFromLines ["y"]⟩,
         ⟨["r"], ["r", ".llmignore"], "x", pathspecFromLines ["x"]⟩] ["r"] :=
  ⟨List.Perm.swap _ _ _,
    claim_C7 ["r", "x"] [] _ _ ["r"] (List.Perm.swap _ _ _)⟩

/-- C10: `should_process` always returns (without raising) for paths under
the project root; for a path outside the root without a `.git` component the
unguarded `relative_to` at line 49 raises (`none`), although the preceding
`.git` check did handle the outside-the-root case via its fallback. -/
theorem claim_C10 :
    (∀ (path exclude_patterns : List String) (ignore_specs : List IgnoreSpec)
        (project_root : List String), project_root <+: path →
        (should_process path exclude_patterns ignore_specs project_root).isSome) ∧
    (¬ (["r"] <+: (["x", "f"] : List String))) ∧
    (".git" ∉ (["x", "f"] : List String)) ∧
    should_process ["x", "f"] [] [] ["r"] = none ∧
    should_process ["x", ".git", "f"] [] [] ["r"] = some false :=
  ⟨fun _ _ _ _ h => should_process_isSome h, by decide, by decide, by decide, by decide⟩

theorem claim_C10_witness :
    (["r"] <+: (["r", "a"] : List String)) ∧
      (should_process ["r", "a"] [] [] ["r"]).isSome :=
  ⟨by decide, claim_C10.1 ["r", "a"] [] [] ["r"] (by decide)⟩

/-- C1 (counterexample): the Tree Renderer and the File Collector diverge.
With the CLI exclude pattern `build`, the directory `build` is excluded, so
`_tree` skips it and never descends; but `rglob`-based collection filters
per entry, and `fnmatch("build/keep.txt", "build")` is false, so the file
beneath the excluded directory is still collected while no tree line ever
mentions it. -/
theorem claim_C1_cex :
    (("build/keep.txt", ["r", "build", "keep.txt"]) ∈
        get_code_files (dirOf [("build", dirOf [("keep.txt", .file 1 (some "k"))])])
          ["r"] ["build"] []) ∧
    (∀ l ∈ treeAux ["build"] [] ["r"]
        (dirOf [("build", dirOf [("keep.txt", .file 1 (some "k"))])]) ["r"] "",
      ¬(l.path = ["r", "build", "keep.txt"] ∧ l.isFile = true)) := by
  constructor
  · decide
  · decide

/-- C1 (amended): on a well-formed tree, for every file none of whose path
components is `__pycache__` and all of whose proper ancestors below the root
pass `should_process`, the renderer and the collector agree: the file gets a
tree line iff it is collected. -/
theorem claim_C1 (fs : FSTree) (R exclude_patterns : List String)
    (ignore_specs : List IgnoreSpec) (s : List String)
    (hwf : wfB fs = true)
    (hpyc : ∀ c ∈ s, c ≠ "__pycache__")
    (hanc : ∀ k, k < s.length → 0 < k →
      should_process (R ++ s.take k) exclude_patterns ignore_specs R = some true) :
    (∃ l ∈ treeAux exclude_patterns ignore_specs R fs R "",
        l.path = R ++ s ∧ l.isFile = true) ↔
      (posixOf s, R ++ s) ∈ get_code_files fs R exclude_patterns ignore_specs := by
  rw [mem_treeAux_file_iff hwf, mem_get_code_files_iff hwf]
  constructor
  · rintro ⟨sz, txt, hne, hlk, hcomps, -, hsp, hinit⟩
    exact ⟨s, sz, txt, hne, rfl, rfl, hlk,
      fun hg => (hcomps ".git" hg).1 rfl, hsp, hinit⟩
  · rintro ⟨s', sz, txt, hne', -, habs, hlk, hgit, hsp, hinit⟩
    have hss : s = s' := List.append_cancel_left habs
    subst hss
    refine ⟨sz, txt, hne', hlk, ?_, ?_, hsp, hinit⟩
    · intro c hc
      exact ⟨fun h => hgit (h ▸ hc), hpyc c hc⟩
    · intro p hpne hplen hppre
      have hk := hanc p.length hplen
        (by cases p with
            | nil => exact absurd rfl hpne
            | cons a b => simp)
      rw [List.prefix_iff_eq_take] at hppre
      rw [← hppre] at hk
      exact hk

theorem claim_C1_witness :
    wfB (dirOf [("a.py", .file 1 (some "x"))]) = true ∧
    (∀ c ∈ (["a.py"] : List String), c ≠ "__pycache__") ∧
    (∀ k, k < (["a.py"] : List String).length → 0 < k →
      should_process (["r"] ++ (["a.py"] : List String).take k) [] [] ["r"] = some true) ∧
    ((∃ l ∈ treeAux [] [] ["r"] (dirOf [("a.py", .file 1 (some "x"))]) ["r"] "",
        l.path = ["r"] ++ ["a.py"] ∧ l.isFile = true) ↔
      (posixOf ["a.py"], ["r"] ++ ["a.py"]) ∈
        get_code_files (dirOf [("a.py", .file 1 (some "x"))]) ["r"] [] []) :=
  ⟨by decide, by decide, by decide,
    claim_C1 (dirOf [("a.py", .file 1 (some "x"))]) ["r"] [] [] ["a.py"]
      (by decide) (by decide) (by decide)⟩

/-- C2 (counterexample): the connector does not follow the last *rendered*
sibling.  With entries `a.txt`, `b.txt` and the CLI exclude `b.txt`, the only
rendered (hence last rendered) sibling `a.txt` is printed with `├──`, because
the connector is chosen by the index among all sorted entries, where `b.txt`
(though excluded) occupies the last position. -/
theorem claim_C2_cex :
    treeAux ["b.txt"] [] ["r"]
        (dirOf [("a.txt", .file 1 (some "a")), ("b.txt", .file 1 (some "b"))]) ["r"] "" =
      [{ line := "├── a.txt", path := ["r", "a.txt"], isFile := true }] := by
  decide

/-- C2 (amended): the entry at index `i` of the sorted sibling list (after
the `__pycache__`/`.git` pre-filter, before exclusion) is rendered — when it
passes `should_process` — with connector `└──` exactly when `i` is the last
index of that list and `├──` otherwise; a recursed directory extends the
indentation with four spaces exactly when `i` is that last index and with
`│   ` otherwise. -/
theorem claim_C2 (E : List String) (S : List IgnoreSpec) (R : List String)
    (cs : FSChildren) (cur : List String) (pre : String)
    (i : Nat) (name : String) (sub : FSTree)
    (hget : (sortEntries cs.toList).get? i = some (name, sub))
    (hsp : should_process (cur ++ [name]) E S R = some true) :
    (sub.isDir = true →
      ({ line := pre ++ (if i = (sortEntries cs.toList).length - 1 then "└──" else "├──")
            ++ " " ++ name ++ "/", path := cur ++ [name], isFile := false }
          ∈ treeAux E S R (.dir cs) cur pre) ∧
      (∀ l ∈ treeAux E S R sub (cur ++ [name])
          (pre ++ (if i = (sortEntries cs.toList).length - 1 then "    " else "│   ")),
        l ∈ treeAux E S R (.dir cs) cur pre)) ∧
    (sub.isDir = false → ¬(name = "__init__.py" ∧ sub.stSize = 0) →
      { line := pre ++ (if i = (sortEntries cs.toList).length - 1 then "└──" else "├──")
          ++ " " ++ name, path := cur ++ [name], isFile := true }
        ∈ treeAux E S R (.dir cs) cur pre) := by
  have hienum : (i, (name, sub)) ∈ (sortEntries cs.toList).enum :=
    List.mk_mem_enum_iff_get?.2 hget
  constructor
  · intro hd
    constructor
    · rw [treeAux_dir, List.mem_flatMap]
      refine ⟨(i, name, sub), hienum, ?_⟩
      simp only [entryBlock]
      rw [if_pos hsp, if_pos hd]
      exact List.mem_cons_self _ _
    · intro l hl
      rw [treeAux_dir, List.mem_flatMap]
      refine ⟨(i, name, sub), hienum, ?_⟩
      simp only [entryBlock]
      rw [if_pos hsp, if_pos hd]
      exact List.mem_cons_of_mem _ hl
  · intro hd hinit
    rw [treeAux_dir, List.mem_flatMap]
    refine ⟨(i, name, sub), hienum, ?_⟩
    simp only [entryBlock]
    rw [if_pos hsp, if_neg (by simp [hd]), if_neg hinit]
    exact List.mem_singleton.2 rfl

theorem claim_C2_witness :
    ((sortEntries (FSChildren.ofList [("a.txt", FSTree.file 1 (some "a"))]).toList).get? 0 =
        some ("a.txt", FSTree.file 1 (some "a"))) ∧
    should_process (["r"] ++ ["a.txt"]) [] [] ["r"] = some true ∧
    ({ line := "" ++ (if 0 = (sortEntries
            (FSChildren.ofList [("a.txt", FSTree.file 1 (some "a"))]).toList).length - 1
          then "└──" else "├──") ++ " " ++ "a.txt",
        path := ["r"] ++ ["a.txt"], isFile := true }
      ∈ treeAux [] [] ["r"] (.dir (FSChildren.ofList [("a.txt", FSTree.file 1 (some "a"))]))
          ["r"] "") :=
  ⟨rfl, by decide,
    (claim_C2 [] [] ["r"] (FSChildren.ofList [("a.txt", FSTree.file 1 (some "a"))])
      ["r"] "" 0 "a.txt" (FSTree.file 1 (some "a")) rfl (by decide)).2
      (by decide) (by decide)⟩

/-- The opening/closing code fence: `n` backticks. -/
def backticks (n : Nat) : String := String.mk (List.replicate n (Char.ofNat 96))

/-- C8: each block `create_markdown` emits for a collected file is a
`fileSection`, and every `fileSection`'s language tag is the file's extension
without its leading dot — its stem when it has no extension — with opening
and closing fences of exactly four backticks when the tag is `md` and exactly
three otherwise. -/
theorem claim_C8 :
    (∀ (fs : FSTree) (dirName : String) (E : List String) (S : List IgnoreSpec),
      create_markdown fs dirName E S false =
        "# " ++ dirName ++ " Overview\n\n" ++
        ("## Folder Structure\n```tree\n" ++ generate_tree fs dirName [] E S ++ "\n```\n\n") ++
        ("## Code\n" ++ String.join ((get_code_files fs [] E S).map fun rp =>
          fileSection rp.1 (rp.2.getLast?.getD "") (readText fs rp.2)))) ∧
    (∀ (rel fileName : String) (text : Option String),
      ∃ tag, tag = (if pySuffix fileName ≠ "" then String.mk ((pySuffix fileName).data.drop 1)
          else pyStem fileName) ∧
        fileSection rel fileName text =
          "### " ++ rel ++ "\n" ++
          (backticks (if tag = "md" then 4 else 3) ++ tag ++ "\n") ++
          (match text with
           | some c => c
           | none => "# [Binary file not displayed]\n") ++ "\n" ++
          (backticks (if tag = "md" then 4 else 3) ++ "\n\n")) := by
  constructor
  · intro fs dirName E S
    rfl
  · intro rel fileName text
    refine ⟨_, rfl, ?_⟩
    have h4 : backticks 4 = "````" := by decide
    have h3 : backticks 3 = "```" := by decide
    have h42 : ("````" : String) ++ "\n\n" = "````\n\n" := by decide
    have h32 : ("```" : String) ++ "\n\n" = "```\n\n" := by decide
    simp only [fileSection]
    by_cases hmd : (if pySuffix fileName ≠ "" then String.mk ((pySuffix fileName).data.drop 1)
        else pyStem fileName) = "md"
    · simp only [hmd, if_pos, if_neg, h4, h42, ne_eq, if_true, reduceIte]
    · simp only [if_neg hmd, h3, h32]

/-- Whether the `directory` argument names an existing directory. -/
def isDirTarget : Option FSTree → Bool
  | some (.dir _) => true
  | _ => false

/-- C9: an absent or non-directory target makes the run exit with code 1 and
an error-stream message, with no output written; a valid directory produces
exit code 0 and exactly the assembled document. -/
theorem claim_C9 (target : Option FSTree) (dirName : String)
    (exclude_patterns : List String) (no_llmignore use_gitignore tree_only : Bool) :
    (isDirTarget target = false →
      pyMain target dirName exclude_patterns no_llmignore use_gitignore tree_only =
        { exitCode := 1, output := none,
          errOut := some ("Error: The directory '" ++ dirName ++
            "' does not exist or is not a directory.") }) ∧
    (∀ cs, target = some (.dir cs) →
      pyMain target dirName exclude_patterns no_llmignore use_gitignore tree_only =
        { exitCode := 0,
          output := some (create_markdown (.dir cs) dirName exclude_patterns
            ((if !no_llmignore then load_ignore_files (.dir cs) [] ".llmignore" else []) ++
             (if use_gitignore then load_ignore_files (.dir cs) [] ".gitignore" else []))
            tree_only),
          errOut := none }) := by
  constructor
  · intro hnd
    cases target with
    | none => rfl
    | some t =>
      cases t with
      | file sz txt => rfl
      | dir cs => simp [isDirTarget] at hnd
  · rintro cs rfl
    rfl

theorem claim_C9_witness :
    isDirTarget none = false ∧
      pyMain none "proj" [] false false false =
        { exitCode := 1, output := none,
          errOut := some ("Error: The directory '" ++ "proj" ++
            "' does not exist or is not a directory.") } :=
  ⟨by decide, (claim_C9 none "proj" [] false false false).1 (by decide)⟩

end PrjOverview

